import Mathlib

/-!
# CBC mode engine, PKCS7 padding, and the IV bit-flipping attack

A shallow embedding of the CBC (Cipher Block Chaining) mode-of-operation
layer demonstrated in `aes-cbc-bit-flipping.ipynb`.  The notebook drives a
library cipher; the CBC chaining, PKCS7 padding and the tampered-IV
computation are specified in `spec.md` and modelled here as pure functions
over byte sequences (`List Nat`, each entry a byte value).  The block
cipher itself is an external collaborator: an abstract pair of mutually
inverse block maps of a fixed block size `B`.
-/

namespace Cbc

/-- Error kinds reported by the engine (spec §7). -/
inductive CbcError where
  | invalidLength
  | invalidPadding
deriving DecidableEq, Repr

instance : DecidableEq (Except CbcError (List Nat)) := fun a b =>
  match a, b with
  | .ok x, .ok y =>
    if h : x = y then isTrue (by rw [h])
    else isFalse (fun hh => h (Except.ok.inj hh))
  | .error x, .error y =>
    if h : x = y then isTrue (by rw [h])
    else isFalse (fun hh => h (Except.error.inj hh))
  | .ok _, .error _ => isFalse (fun hh => Except.noConfusion hh)
  | .error _, .ok _ => isFalse (fun hh => Except.noConfusion hh)

/-- Byte-wise XOR of two byte sequences; like Python's
`[a ^ b for a, b in zip(xs, ys)]` it truncates to the shorter input. -/
def bytesXor (a b : List Nat) : List Nat := List.zipWith (· ^^^ ·) a b

/-- Modelled from the spec: the PKCS7 `pad(data, blockSize)` of §4.1 (the
notebook calls `padding.PKCS7(...).padder()`, whose implementation is not in
the repository).  Computes `padLen = B - (len(data) mod B)` and appends
`padLen` bytes each equal to `padLen`; when `len(data) mod B = 0` this is
`B - 0 = B`, so at least one byte is always appended. -/
def pad (B : Nat) (data : List Nat) : List Nat :=
  data ++ List.replicate (B - data.length % B) (B - data.length % B)

/-- Modelled from the spec: the PKCS7 `unpad(data, blockSize)` of §4.1 (the
notebook calls `padding.PKCS7(...).unpadder()`, whose implementation is not
in the repository).  Reads the last byte `v`; fails with `InvalidPadding`
if `v = 0`, `v > B`, `len(data) < v`, or the last `v` bytes are not all
equal to `v`; otherwise strips the last `v` bytes. -/
def unpad (B : Nat) (data : List Nat) : Except CbcError (List Nat) :=
  match data.getLast? with
  | none => .error .invalidPadding
  | some v =>
    if v = 0 ∨ B < v ∨ data.length < v ∨ ¬ (∀ x ∈ data.drop (data.length - v), x = v)
    then .error .invalidPadding
    else .ok (data.take (data.length - v))

/-- The external block-cipher collaborator of spec §6: a fixed block size
`B`, one key baked in, and mutually inverse, length-preserving block maps.
Quantifying over `BlockCipher` instances quantifies over keys. -/
structure BlockCipher where
  B : Nat
  encBlock : List Nat → List Nat
  decBlock : List Nat → List Nat
  hB : 0 < B
  enc_len : ∀ b : List Nat, b.length = B → (encBlock b).length = B
  dec_len : ∀ b : List Nat, b.length = B → (decBlock b).length = B
  dec_enc : ∀ b : List Nat, b.length = B → decBlock (encBlock b) = b

/-- Split a byte sequence into consecutive chunks of `B` bytes (the last
chunk is shorter when `B` does not divide the length). -/
def toBlocks (B : Nat) (data : List Nat) : List (List Nat) :=
  if B = 0 ∨ data.length = 0 then []
  else data.take B :: toBlocks B (data.drop B)
termination_by data.length
decreasing_by
  rename_i h
  push_neg at h
  simp only [List.length_drop]
  omega

/-- Modelled from the spec: the chaining loop of `CbcEngine.encrypt`
(§4.2): `C_i = encrypt_block(key, P_i XOR prev)` with `prev` the previous
ciphertext block, initially the IV. -/
def cbcEncryptBlocks (C : BlockCipher) (prev : List Nat) : List (List Nat) → List (List Nat)
  | [] => []
  | p :: ps =>
    let c := C.encBlock (bytesXor p prev)
    c :: cbcEncryptBlocks C c ps

/-- Modelled from the spec: the chaining loop of `CbcEngine.decrypt`
(§4.2): `P_i = decrypt_block(key, C_i) XOR prev`, where `prev` is always
the *received* ciphertext block `C_(i-1)` (the IV for `i = 1`), never its
decrypted form. -/
def cbcDecryptBlocks (C : BlockCipher) (prev : List Nat) : List (List Nat) → List (List Nat)
  | [] => []
  | c :: cs => bytesXor (C.decBlock c) prev :: cbcDecryptBlocks C c cs

/-- Modelled from the spec: `CbcEngine.encrypt(key, iv, paddedPlaintext)`
(§4.2).  Fails with `InvalidLength` if the input length is not a multiple
of `B`; otherwise chains and concatenates the ciphertext blocks. -/
def encrypt (C : BlockCipher) (iv data : List Nat) : Except CbcError (List Nat) :=
  if data.length % C.B = 0
  then .ok (cbcEncryptBlocks C iv (toBlocks C.B data)).flatten
  else .error .invalidLength

/-- Modelled from the spec: `CbcEngine.decrypt(key, iv, ciphertext)`
(§4.2).  Fails with `InvalidLength` if the ciphertext length is not a
multiple of `B` or the ciphertext is empty. -/
def decrypt (C : BlockCipher) (iv data : List Nat) : Except CbcError (List Nat) :=
  if data.length % C.B = 0 ∧ data ≠ []
  then .ok (cbcDecryptBlocks C iv (toBlocks C.B data)).flatten
  else .error .invalidLength

/-- Modelled from the spec: `computeTamperedIV(originalIV, known, desired,
offset)` of §4.3 (the notebook hard-codes the `offset = 0`, full-block
instance as `altered_iv_arr = [i ^ sr for i, sr in zip(iv_ord,
secret_rabbit_xor)]`).  Computes `delta = known XOR desired` and returns
`originalIV` with the bytes at `[offset, offset + len(delta))` replaced by
their XOR with `delta`; all other bytes are unchanged. -/
def computeTamperedIV (originalIV known desired : List Nat) (offset : Nat) : List Nat :=
  originalIV.take offset
    ++ bytesXor ((originalIV.drop offset).take (bytesXor known desired).length)
        (bytesXor known desired)
    ++ originalIV.drop (offset + (bytesXor known desired).length)

/-- Flip bit `k` of byte `j` of a block (XOR that byte with `2^k`). -/
def flipBit (blk : List Nat) (j k : Nat) : List Nat :=
  blk.set j (blk.getD j 0 ^^^ (1 <<< k))

/-- The identity block cipher of block size `B`: a trivial inhabitant of
the block-cipher contract, used to instantiate universally quantified
statements on concrete inputs. -/
def idCipher (B : Nat) (hB : 0 < B) : BlockCipher :=
  ⟨B, id, id, hB, fun _ h => h, fun _ h => h, fun _ _ => rfl⟩

/-- The ASCII bytes of the notebook's plaintext `b"a secret"`. -/
def aSecret : List Nat := [97, 32, 115, 101, 99, 114, 101, 116]

/-- The ASCII bytes of the known segment `b"  secret        "`
(`secret_ord` in the notebook). -/
def knownSegment : List Nat :=
  [32, 32, 115, 101, 99, 114, 101, 116, 32, 32, 32, 32, 32, 32, 32, 32]

/-- The ASCII bytes of the desired segment `b"  rabbit        "`
(`rabbit_ord` in the notebook). -/
def desiredSegment : List Nat :=
  [32, 32, 114, 97, 98, 98, 105, 116, 32, 32, 32, 32, 32, 32, 32, 32]

/-- The ASCII bytes of the altered plaintext `b"a rabbit"`. -/
def aRabbit : List Nat := [97, 32, 114, 97, 98, 98, 105, 116]

/-- The round-trip pipeline of the spec's testable property: pad, encrypt,
decrypt under the same key and IV, unpad. -/
def encryptThenDecrypt (C : BlockCipher) (iv m : List Nat) :
    Except CbcError (List Nat) := do
  let ct ← encrypt C iv (pad C.B m)
  let pt ← decrypt C iv ct
  unpad C.B pt

/-- The notebook's attack scenario: pad and encrypt `b"a secret"`, then
decrypt with the IV tampered to substitute `b"  secret        "` by
`b"  rabbit        "` at offset 0, then unpad. -/
def attackScenario (C : BlockCipher) (iv : List Nat) :
    Except CbcError (List Nat) := do
  let ct ← encrypt C iv (pad C.B aSecret)
  let pt ← decrypt C (computeTamperedIV iv knownSegment desiredSegment 0) ct
  unpad C.B pt

/-- The identity cipher at block size 2, for concrete instantiations. -/
def cipher2 : BlockCipher := idCipher 2 (Nat.succ_pos 1)

/-- The identity cipher at block size 16, for concrete instantiations. -/
def cipher16 : BlockCipher := idCipher 16 (Nat.succ_pos 15)

/-! ## Lemmas about `bytesXor` -/

theorem length_bytesXor (a b : List Nat) :
    (bytesXor a b).length = min a.length b.length :=
  List.length_zipWith _ _ _

theorem bytesXor_getElem? (a b : List Nat) (u : Nat) (ha : u < a.length)
    (hb : u < b.length) :
    (bytesXor a b)[u]? = some (a.getD u 0 ^^^ b.getD u 0) := by
  unfold bytesXor
  rw [List.getElem?_zipWith, List.getElem?_eq_getElem ha, List.getElem?_eq_getElem hb,
    List.getD_eq_getElem _ _ ha, List.getD_eq_getElem _ _ hb]

theorem bytesXor_getD (a b : List Nat) (u : Nat) (ha : u < a.length)
    (hb : u < b.length) :
    (bytesXor a b).getD u 0 = a.getD u 0 ^^^ b.getD u 0 := by
  rw [List.getD_eq_getElem?_getD, bytesXor_getElem? a b u ha hb, Option.getD_some]

theorem bytesXor_bytesXor_cancel (a : List Nat) :
    ∀ v : List Nat, a.length ≤ v.length → bytesXor (bytesXor a v) v = a := by
  induction a with
  | nil => intro v _; rfl
  | cons x a ih =>
    intro v hv
    cases v with
    | nil => simp at hv
    | cons y v =>
      simp only [bytesXor, List.zipWith_cons_cons, Nat.xor_cancel_right,
        List.cons.injEq, true_and]
      exact ih v (by simpa using hv)

theorem bytesXor_bytesXor_left (a : List Nat) :
    ∀ v d : List Nat, a.length ≤ v.length → a.length ≤ d.length →
      bytesXor (bytesXor a v) (bytesXor v d) = bytesXor a d := by
  induction a with
  | nil => intro v d _ _; rfl
  | cons x a ih =>
    intro v d hv hd
    cases v with
    | nil => simp at hv
    | cons y v =>
      cases d with
      | nil => simp at hd
      | cons z d =>
        simp only [bytesXor, List.zipWith_cons_cons, List.cons.injEq]
        constructor
        · rw [Nat.xor_assoc, ← Nat.xor_assoc y y z, Nat.xor_self, Nat.zero_xor]
        · exact ih v d (by simpa using hv) (by simpa using hd)

/-! ## Lemmas about `toBlocks` -/

theorem flatten_toBlocks (B : Nat) (hB : 0 < B) (data : List Nat) :
    (toBlocks B data).flatten = data := by
  induction data using toBlocks.induct B with
  | case1 x hx =>
    rw [toBlocks, if_pos hx]
    rcases hx with h | h
    · omega
    · exact (List.length_eq_zero.mp h).symm
  | case2 x hx ih =>
    rw [toBlocks, if_neg hx, List.flatten_cons, ih, List.take_append_drop]

theorem toBlocks_flatten (B : Nat) (hB : 0 < B) :
    ∀ bs : List (List Nat), (∀ b ∈ bs, b.length = B) →
      toBlocks B bs.flatten = bs := by
  intro bs
  induction bs with
  | nil =>
    intro _
    rw [toBlocks, if_pos]
    right
    rfl
  | cons b bs ih =>
    intro hbs
    have hb : b.length = B := hbs b (List.mem_cons_self _ _)
    rw [toBlocks, if_neg, List.flatten_cons, List.take_left' hb, List.drop_left' hb,
      ih fun q hq => hbs q (List.mem_cons_of_mem _ hq)]
    push_neg
    refine ⟨by omega, ?_⟩
    simp only [List.flatten_cons, List.length_append]
    omega

theorem toBlocks_mem_length (B : Nat) (hB : 0 < B) :
    ∀ data : List Nat, B ∣ data.length → ∀ b ∈ toBlocks B data, b.length = B := by
  intro data
  induction data using toBlocks.induct B with
  | case1 x hx =>
    intro _ b hb
    rw [toBlocks, if_pos hx] at hb
    simp at hb
  | case2 x hx ih =>
    intro hdvd b hb
    push_neg at hx
    have hBle : B ≤ x.length := Nat.le_of_dvd (by omega) hdvd
    rw [toBlocks, if_neg (by push_neg; exact hx)] at hb
    rcases List.mem_cons.mp hb with h | h
    · rw [h, List.length_take]
      omega
    · refine ih ?_ b h
      rw [List.length_drop]
      exact (Nat.dvd_sub' hdvd dvd_rfl)

theorem toBlocks_ne_nil (B : Nat) (hB : 0 < B) (data : List Nat) (hd : data ≠ []) :
    toBlocks B data ≠ [] := by
  rw [toBlocks, if_neg]
  · exact List.cons_ne_nil _ _
  · push_neg
    exact ⟨by omega, by simpa using hd⟩

/-! ## Lemmas about the CBC chaining loops -/

theorem cbcEncryptBlocks_mem_length (C : BlockCipher) :
    ∀ (ps : List (List Nat)) (prev : List Nat), prev.length = C.B →
      (∀ p ∈ ps, p.length = C.B) →
      ∀ c ∈ cbcEncryptBlocks C prev ps, c.length = C.B := by
  intro ps
  induction ps with
  | nil =>
    intro prev _ _ c hc
    simp [cbcEncryptBlocks] at hc
  | cons p ps ih =>
    intro prev hprev hps c hc
    have hx : (bytesXor p prev).length = C.B := by
      rw [length_bytesXor, hps p (List.mem_cons_self _ _), hprev, Nat.min_self]
    simp only [cbcEncryptBlocks] at hc
    rcases List.mem_cons.mp hc with h | h
    · rw [h]
      exact C.enc_len _ hx
    · exact ih _ (C.enc_len _ hx) (fun q hq => hps q (List.mem_cons_of_mem _ hq)) c h

theorem cbcDecryptBlocks_cbcEncryptBlocks (C : BlockCipher) :
    ∀ (ps : List (List Nat)) (prev : List Nat), prev.length = C.B →
      (∀ p ∈ ps, p.length = C.B) →
      cbcDecryptBlocks C prev (cbcEncryptBlocks C prev ps) = ps := by
  intro ps
  induction ps with
  | nil => intro prev _ _; rfl
  | cons p ps ih =>
    intro prev hprev hps
    have hp : p.length = C.B := hps p (List.mem_cons_self _ _)
    have hx : (bytesXor p prev).length = C.B := by
      rw [length_bytesXor, hp, hprev, Nat.min_self]
    simp only [cbcEncryptBlocks, cbcDecryptBlocks, List.cons.injEq]
    rw [C.dec_enc _ hx]
    constructor
    · exact bytesXor_bytesXor_cancel p prev (by omega)
    · exact ih _ (C.enc_len _ hx) (fun q hq => hps q (List.mem_cons_of_mem _ hq))

theorem cbcDecryptBlocks_length (C : BlockCipher) :
    ∀ (cs : List (List Nat)) (prev : List Nat),
      (cbcDecryptBlocks C prev cs).length = cs.length := by
  intro cs
  induction cs with
  | nil => intro prev; rfl
  | cons c cs ih =>
    intro prev
    simp only [cbcDecryptBlocks, List.length_cons, ih]

/-- The plaintext block at index `t` produced by CBC decryption is the
block-cipher decryption of ciphertext block `t` XORed with the chain input
at `t`, which is the IV for `t = 0` and ciphertext block `t - 1`
otherwise: uniformly, entry `t` of `prev :: cs`. -/
theorem cbcDecryptBlocks_getElem? (C : BlockCipher) :
    ∀ (cs : List (List Nat)) (prev : List Nat) (t : Nat),
      (cbcDecryptBlocks C prev cs)[t]? =
        (cs[t]?).map (fun c => bytesXor (C.decBlock c) ((prev :: cs).getD t [])) := by
  intro cs
  induction cs with
  | nil => intro prev t; simp [cbcDecryptBlocks]
  | cons c cs ih =>
    intro prev t
    cases t with
    | zero => simp [cbcDecryptBlocks]
    | succ t =>
      simp only [cbcDecryptBlocks, List.getElem?_cons_succ, List.getD_cons_succ]
      exact ih c t

/-! ## Lemmas about `pad` and `unpad` -/

theorem pad_length (B : Nat) (m : List Nat) :
    (pad B m).length = m.length + (B - m.length % B) := by
  simp [pad]

theorem pad_length_mod (B : Nat) (hB : 0 < B) (m : List Nat) :
    (pad B m).length % B = 0 := by
  have h1 := Nat.div_add_mod m.length B
  have h2 : m.length % B < B := Nat.mod_lt _ hB
  obtain ⟨X, hX⟩ : ∃ X, B * (m.length / B) = X := ⟨_, rfl⟩
  rw [hX] at h1
  have key : (pad B m).length = B * (m.length / B + 1) := by
    rw [pad_length, Nat.mul_add, Nat.mul_one, hX]
    omega
  rw [key]
  exact Nat.mul_mod_right _ _

theorem pad_ne_nil (B : Nat) (hB : 0 < B) (m : List Nat) : pad B m ≠ [] := by
  have h2 : m.length % B < B := Nat.mod_lt _ hB
  have : 0 < (pad B m).length := by
    rw [pad_length]
    omega
  exact List.ne_nil_of_length_pos this

theorem unpad_pad (B : Nat) (hB : 0 < B) (m : List Nat) :
    unpad B (pad B m) = .ok m := by
  have h2 : m.length % B < B := Nat.mod_lt _ hB
  have hpl1 : 1 ≤ B - m.length % B := by omega
  have hlast : (pad B m).getLast? = some (B - m.length % B) := by
    rw [pad, List.getLast?_append, List.getLast?_replicate, if_neg (by omega)]
    rfl
  unfold unpad
  rw [hlast]
  dsimp only
  rw [if_neg]
  · rw [pad, List.length_append, List.length_replicate, Nat.add_sub_cancel,
      List.take_left]
  · push_neg
    refine ⟨by omega, by omega, ?_, ?_⟩
    · rw [pad_length]
      omega
    · rw [pad, List.length_append, List.length_replicate, Nat.add_sub_cancel,
        List.drop_left]
      intro x hx
      exact List.eq_of_mem_replicate hx

/-! ## Lemmas about `computeTamperedIV` -/

theorem computeTamperedIV_length (iv known desired : List Nat) (offset : Nat)
    (hlen : known.length = desired.length)
    (hoff : offset + known.length ≤ iv.length) :
    (computeTamperedIV iv known desired offset).length = iv.length := by
  simp only [computeTamperedIV, List.length_append, List.length_take,
    List.length_drop, length_bytesXor]
  omega

theorem computeTamperedIV_getElem? (iv known desired : List Nat) (offset u : Nat)
    (hlen : known.length = desired.length)
    (hoff : offset + known.length ≤ iv.length) :
    (computeTamperedIV iv known desired offset)[u]? =
      if offset ≤ u ∧ u < offset + known.length
      then some (iv.getD u 0 ^^^
        (known.getD (u - offset) 0 ^^^ desired.getD (u - offset) 0))
      else iv[u]? := by
  have hd : (bytesXor known desired).length = known.length := by
    rw [length_bytesXor, hlen, Nat.min_self]
  have htake : (iv.take offset).length = offset := by
    rw [List.length_take]
    omega
  have hmid : (bytesXor ((iv.drop offset).take (bytesXor known desired).length)
      (bytesXor known desired)).length = known.length := by
    rw [length_bytesXor, List.length_take, List.length_drop, hd]
    omega
  unfold computeTamperedIV
  rw [List.getElem?_append, List.getElem?_append, List.length_append, htake, hmid, hd]
  by_cases hu : u < offset
  · rw [if_pos (by omega), if_pos hu, List.getElem?_take, if_pos hu,
      if_neg (by omega)]
  · by_cases hu2 : u < offset + known.length
    · rw [if_pos hu2, if_neg hu, if_pos (by omega)]
      have ha : u - offset < ((iv.drop offset).take known.length).length := by
        rw [List.length_take, List.length_drop]
        omega
      have hb : u - offset < (bytesXor known desired).length := by
        rw [hd]
        omega
      rw [bytesXor_getElem? _ _ _ ha hb]
      have hX : ((iv.drop offset).take known.length).getD
          (u - offset) 0 = iv.getD u 0 := by
        rw [List.getD_eq_getElem?_getD, List.getElem?_take, if_pos (by omega),
          List.getElem?_drop, List.getD_eq_getElem?_getD]
        have h : offset + (u - offset) = u := by omega
        rw [h]
      have hY : (bytesXor known desired).getD (u - offset) 0 =
          known.getD (u - offset) 0 ^^^ desired.getD (u - offset) 0 :=
        bytesXor_getD _ _ _ (by omega) (by omega)
      rw [hX, hY]
    · rw [if_neg hu2, if_neg (by omega), List.getElem?_drop]
      have h : offset + known.length + (u - (offset + known.length)) = u := by omega
      rw [h]

/-! ## Flattening and the full `encrypt`/`decrypt` wrappers -/

theorem flatten_length_of_mem (B : Nat) :
    ∀ bs : List (List Nat), (∀ b ∈ bs, b.length = B) →
      bs.flatten.length = bs.length * B := by
  intro bs
  induction bs with
  | nil => intro _; simp
  | cons b bs ih =>
    intro hbs
    rw [List.flatten_cons, List.length_append, List.length_cons,
      hbs b (List.mem_cons_self _ _), ih fun q hq => hbs q (List.mem_cons_of_mem _ hq),
      Nat.succ_mul, Nat.add_comm]

theorem cbcEncryptBlocks_length (C : BlockCipher) :
    ∀ (ps : List (List Nat)) (prev : List Nat),
      (cbcEncryptBlocks C prev ps).length = ps.length := by
  intro ps
  induction ps with
  | nil => intro prev; rfl
  | cons p ps ih =>
    intro prev
    simp only [cbcEncryptBlocks, List.length_cons, ih]

/-- Decrypting the concatenation of full-size ciphertext blocks succeeds
and equals the concatenation of the chained block decryptions. -/
theorem decrypt_flatten (C : BlockCipher) (iv : List Nat)
    (bs : List (List Nat)) (hbs : ∀ b ∈ bs, b.length = C.B) (hne : bs ≠ []) :
    decrypt C iv bs.flatten = .ok (cbcDecryptBlocks C iv bs).flatten := by
  have hlen : bs.flatten.length = bs.length * C.B := flatten_length_of_mem C.B bs hbs
  unfold decrypt
  rw [if_pos, toBlocks_flatten C.B C.hB bs hbs]
  constructor
  · rw [hlen]
    exact Nat.mul_mod_left _ _
  · apply List.ne_nil_of_length_pos
    rw [hlen]
    have h1 : 0 < bs.length := List.length_pos.mpr hne
    have h2 := C.hB
    positivity

theorem flipBit_length (blk : List Nat) (j k : Nat) :
    (flipBit blk j k).length = blk.length := by
  unfold flipBit
  exact List.length_set _ _ _

/-- XORing against a block with one flipped bit flips exactly that bit of
the XOR result. -/
theorem bytesXor_flipBit_right (d c : List Nat) (j k : Nat)
    (hjd : j < d.length) (hjc : j < c.length) :
    bytesXor d (flipBit c j k) = flipBit (bytesXor d c) j k := by
  apply List.ext_getElem?
  intro u
  unfold flipBit
  by_cases hu : u = j
  · subst hu
    have hset : u < (c.set u (c.getD u 0 ^^^ 1 <<< k)).length := by
      rw [List.length_set]
      exact hjc
    rw [bytesXor_getElem? _ _ _ hjd hset, List.getElem?_set, if_pos rfl,
      if_pos (by rw [length_bytesXor]; omega)]
    have hgetset : (c.set u (c.getD u 0 ^^^ 1 <<< k)).getD u 0 =
        c.getD u 0 ^^^ 1 <<< k := by
      rw [List.getD_eq_getElem?_getD, List.getElem?_set, if_pos rfl, if_pos hjc,
        Option.getD_some]
    rw [hgetset, bytesXor_getD _ _ _ hjd hjc, Nat.xor_assoc]
  · rw [List.getElem?_set, if_neg (fun h => hu h.symm)]
    by_cases hub : u < d.length ∧ u < c.length
    · have hset : u < (c.set j (c.getD j 0 ^^^ 1 <<< k)).length := by
        rw [List.length_set]
        exact hub.2
      rw [bytesXor_getElem? _ _ _ hub.1 hset,
        bytesXor_getElem? _ _ _ hub.1 hub.2]
      have : (c.set j (c.getD j 0 ^^^ 1 <<< k)).getD u 0 = c.getD u 0 := by
        rw [List.getD_eq_getElem?_getD, List.getElem?_set,
          if_neg (fun h => hu h.symm), List.getD_eq_getElem?_getD]
      rw [this]
    · have h1 : (bytesXor d (c.set j (c.getD j 0 ^^^ 1 <<< k)))[u]? = none := by
        apply List.getElem?_eq_none
        rw [length_bytesXor, List.length_set]
        omega
      have h2 : (bytesXor d c)[u]? = none := by
        apply List.getElem?_eq_none
        rw [length_bytesXor]
        omega
      rw [h1, h2]

theorem bind_ok_cbc (x : List Nat) (f : List Nat → Except CbcError (List Nat)) :
    (Except.ok x : Except CbcError (List Nat)) >>= f = f x := rfl

/-! ## Claim theorems -/

/-- C1: for every key (block cipher satisfying the collaborator contract),
every IV of length `B`, and every plaintext byte sequence of any length,
unpadding the decryption (same key and IV) of the encryption of the padded
plaintext returns the original plaintext. -/
theorem encrypt_decrypt_unpad_roundtrip (C : BlockCipher) (iv m : List Nat)
    (hiv : iv.length = C.B) :
    encryptThenDecrypt C iv m = .ok m := by
  have hB := C.hB
  have hmod : (pad C.B m).length % C.B = 0 := pad_length_mod C.B hB m
  have hblen : ∀ b ∈ toBlocks C.B (pad C.B m), b.length = C.B :=
    toBlocks_mem_length C.B hB _ (Nat.dvd_of_mod_eq_zero hmod)
  have hcblen : ∀ c ∈ cbcEncryptBlocks C iv (toBlocks C.B (pad C.B m)),
      c.length = C.B :=
    cbcEncryptBlocks_mem_length C _ iv hiv hblen
  have hpsne : toBlocks C.B (pad C.B m) ≠ [] :=
    toBlocks_ne_nil C.B hB _ (pad_ne_nil C.B hB m)
  have hcbne : cbcEncryptBlocks C iv (toBlocks C.B (pad C.B m)) ≠ [] := by
    intro h
    have hl := cbcEncryptBlocks_length C (toBlocks C.B (pad C.B m)) iv
    rw [h] at hl
    exact hpsne (List.length_eq_zero.mp hl.symm)
  have h1 : encrypt C iv (pad C.B m) =
      .ok (cbcEncryptBlocks C iv (toBlocks C.B (pad C.B m))).flatten := by
    unfold encrypt
    rw [if_pos hmod]
  have h2 : decrypt C iv
      (cbcEncryptBlocks C iv (toBlocks C.B (pad C.B m))).flatten =
      .ok (pad C.B m) := by
    rw [decrypt_flatten C iv _ hcblen hcbne,
      cbcDecryptBlocks_cbcEncryptBlocks C _ iv hiv hblen,
      flatten_toBlocks C.B hB]
  unfold encryptThenDecrypt
  rw [h1, bind_ok_cbc, h2, bind_ok_cbc]
  exact unpad_pad C.B hB m

theorem encrypt_decrypt_unpad_roundtrip_witness :
    ([0, 0] : List Nat).length = cipher2.B ∧
      encryptThenDecrypt cipher2 [0, 0] [1, 2, 3] = .ok [1, 2, 3] :=
  ⟨rfl, encrypt_decrypt_unpad_roundtrip cipher2 [0, 0] [1, 2, 3] rfl⟩

/-- C2: flipping bit `k` of byte `j` of ciphertext block `i` (with block
`i + 1` existing) and CBC-decrypting leaves every plaintext block other
than `i` and `i + 1` unchanged, and changes plaintext block `i + 1` in
exactly the corresponding bit position (block `i` itself is unrelated
garbage: nothing is claimed about it); the tampered ciphertext still
decrypts successfully to the concatenation of these blocks. -/
theorem bitflip_confinement (C : BlockCipher) (iv : List Nat)
    (cs : List (List Nat)) (i j k : Nat)
    (hcs : ∀ b ∈ cs, b.length = C.B) (hi : i + 1 < cs.length)
    (hj : j < C.B) (hk : k < 8) :
    (∀ t, t ≠ i → t ≠ i + 1 →
      (cbcDecryptBlocks C iv (cs.set i (flipBit (cs.getD i []) j k)))[t]? =
        (cbcDecryptBlocks C iv cs)[t]?) ∧
    (cbcDecryptBlocks C iv (cs.set i (flipBit (cs.getD i []) j k)))[i + 1]? =
      ((cbcDecryptBlocks C iv cs)[i + 1]?).map (fun b => flipBit b j k) ∧
    decrypt C iv (cs.set i (flipBit (cs.getD i []) j k)).flatten =
      .ok (cbcDecryptBlocks C iv (cs.set i (flipBit (cs.getD i []) j k))).flatten := by
  have hilt : i < cs.length := by omega
  have hcilen : (cs.getD i []).length = C.B := by
    rw [List.getD_eq_getElem?_getD, List.getElem?_eq_getElem hilt, Option.getD_some]
    exact hcs _ (List.getElem_mem hilt)
  have hcs'len : ∀ b ∈ cs.set i (flipBit (cs.getD i []) j k), b.length = C.B := by
    intro b hb
    rcases List.mem_or_eq_of_mem_set hb with h | h
    · exact hcs b h
    · rw [h, flipBit_length]
      exact hcilen
  refine ⟨?_, ?_, ?_⟩
  · intro t hti hti1
    rw [cbcDecryptBlocks_getElem? C _ iv t, cbcDecryptBlocks_getElem? C cs iv t]
    have hget : (cs.set i (flipBit (cs.getD i []) j k))[t]? = cs[t]? := by
      rw [List.getElem?_set, if_neg (fun h => hti h.symm)]
    rw [hget]
    have hchain : (iv :: cs.set i (flipBit (cs.getD i []) j k)).getD t [] =
        (iv :: cs).getD t [] := by
      cases t with
      | zero => rw [List.getD_cons_zero, List.getD_cons_zero]
      | succ s =>
        rw [List.getD_cons_succ, List.getD_cons_succ, List.getD_eq_getElem?_getD,
          List.getElem?_set, if_neg (by omega), ← List.getD_eq_getElem?_getD]
    rw [hchain]
  · rw [cbcDecryptBlocks_getElem? C _ iv (i + 1),
      cbcDecryptBlocks_getElem? C cs iv (i + 1)]
    have hget : (cs.set i (flipBit (cs.getD i []) j k))[i + 1]? = cs[i + 1]? := by
      rw [List.getElem?_set, if_neg (by omega)]
    rw [hget]
    have hchain : (iv :: cs.set i (flipBit (cs.getD i []) j k)).getD (i + 1) [] =
        flipBit (cs.getD i []) j k := by
      rw [List.getD_cons_succ, List.getD_eq_getElem?_getD, List.getElem?_set,
        if_pos rfl, if_pos hilt, Option.getD_some]
    have hchain' : (iv :: cs).getD (i + 1) [] = cs.getD i [] := by
      rw [List.getD_cons_succ]
    rw [hchain, hchain', List.getElem?_eq_getElem hi, Option.map_some',
      Option.map_some']
    congr 1
    apply bytesXor_flipBit_right
    · rw [C.dec_len _ (hcs _ (List.getElem_mem hi))]
      exact hj
    · rw [hcilen]
      exact hj
  · apply decrypt_flatten C iv _ hcs'len
    apply List.ne_nil_of_length_pos
    rw [List.length_set]
    omega

theorem bitflip_confinement_witness :
    (cbcDecryptBlocks cipher2 [0, 0]
      ([[1, 2], [3, 4]].set 0 (flipBit ([[1, 2], [3, 4]].getD 0 []) 1 0)))[1]? =
      some [2, 7] := by
  have h := bitflip_confinement cipher2 [0, 0] [[1, 2], [3, 4]] 0 1 0
    (by decide) (by decide) (by decide) (by decide)
  rw [h.2.1]
  decide

/-- C3: if the first plaintext block of a decryption contains `known` at
`offset` (with `offset + len ≤ B` and `len known = len desired`), then
decrypting instead with `computeTamperedIV iv known desired offset` yields
a first plaintext block equal to `desired` inside
`[offset, offset + len)`, equal to the original first block outside that
range, and leaves every later block identical; the ciphertext still
decrypts successfully to the concatenation of these blocks. -/
theorem tamperedIV_first_block (C : BlockCipher) (iv known desired : List Nat)
    (offset : Nat) (cs : List (List Nat))
    (hiv : iv.length = C.B)
    (hcs : ∀ b ∈ cs, b.length = C.B)
    (hne : cs ≠ [])
    (hlen : known.length = desired.length)
    (hoff : offset + known.length ≤ C.B)
    (hknown : ∀ t, t < known.length →
      ((cbcDecryptBlocks C iv cs).getD 0 []).getD (offset + t) 0 =
        known.getD t 0) :
    (∀ t, 1 ≤ t →
      (cbcDecryptBlocks C (computeTamperedIV iv known desired offset) cs)[t]? =
        (cbcDecryptBlocks C iv cs)[t]?) ∧
    (∀ u, offset ≤ u → u < offset + known.length →
      ((cbcDecryptBlocks C (computeTamperedIV iv known desired offset)
          cs).getD 0 []).getD u 0 = desired.getD (u - offset) 0) ∧
    (∀ u, u < C.B → ¬ (offset ≤ u ∧ u < offset + known.length) →
      ((cbcDecryptBlocks C (computeTamperedIV iv known desired offset)
          cs).getD 0 []).getD u 0 =
        ((cbcDecryptBlocks C iv cs).getD 0 []).getD u 0) ∧
    decrypt C (computeTamperedIV iv known desired offset) cs.flatten =
      .ok (cbcDecryptBlocks C (computeTamperedIV iv known desired offset)
        cs).flatten := by
  obtain ⟨c0, rest, rfl⟩ : ∃ c0 rest, cs = c0 :: rest := by
    cases cs with
    | nil => exact absurd rfl hne
    | cons a l => exact ⟨a, l, rfl⟩
  have hoffiv : offset + known.length ≤ iv.length := by
    rw [hiv]
    exact hoff
  have hivtlen : (computeTamperedIV iv known desired offset).length = C.B := by
    rw [computeTamperedIV_length iv known desired offset hlen hoffiv, hiv]
  have hc0 : c0.length = C.B := hcs c0 (List.mem_cons_self _ _)
  have hd : (C.decBlock c0).length = C.B := C.dec_len c0 hc0
  refine ⟨?_, ?_, ?_,
    decrypt_flatten C _ _ hcs (List.cons_ne_nil _ _)⟩
  · intro t ht
    obtain ⟨s, rfl⟩ : ∃ s, t = s + 1 := ⟨t - 1, by omega⟩
    simp only [cbcDecryptBlocks, List.getElem?_cons_succ]
  · intro u h1 h2
    simp only [cbcDecryptBlocks, List.getD_cons_zero]
    rw [bytesXor_getD _ _ u (by omega) (by rw [hivtlen]; omega)]
    have hivu : (computeTamperedIV iv known desired offset).getD u 0 =
        iv.getD u 0 ^^^
          (known.getD (u - offset) 0 ^^^ desired.getD (u - offset) 0) := by
      rw [List.getD_eq_getElem?_getD,
        computeTamperedIV_getElem? iv known desired offset u hlen hoffiv,
        if_pos ⟨h1, h2⟩, Option.getD_some]
    rw [hivu]
    have hP1 : (C.decBlock c0).getD u 0 ^^^ iv.getD u 0 =
        known.getD (u - offset) 0 := by
      have hk := hknown (u - offset) (by omega)
      simp only [cbcDecryptBlocks, List.getD_cons_zero] at hk
      rw [show offset + (u - offset) = u by omega] at hk
      rw [bytesXor_getD _ _ u (by omega) (by rw [hiv]; omega)] at hk
      exact hk
    rw [← Nat.xor_assoc, hP1, ← Nat.xor_assoc, Nat.xor_self, Nat.zero_xor]
  · intro u hu hrange
    simp only [cbcDecryptBlocks, List.getD_cons_zero]
    rw [bytesXor_getD _ _ u (by omega) (by rw [hivtlen]; omega),
      bytesXor_getD _ _ u (by omega) (by rw [hiv]; omega)]
    have hivu : (computeTamperedIV iv known desired offset).getD u 0 =
        iv.getD u 0 := by
      rw [List.getD_eq_getElem?_getD,
        computeTamperedIV_getElem? iv known desired offset u hlen hoffiv,
        if_neg hrange, ← List.getD_eq_getElem?_getD]
    rw [hivu]

theorem tamperedIV_first_block_witness :
    (((cbcDecryptBlocks cipher2 [1, 2] [[5, 6]]).getD 0 []).getD 0 0 = 4) ∧
      ((cbcDecryptBlocks cipher2 (computeTamperedIV [1, 2] [4] [7] 0)
        [[5, 6]]).getD 0 []).getD 0 0 = 7 := by
  have h := tamperedIV_first_block cipher2 [1, 2] [4] [7] 0 [[5, 6]]
    rfl (by decide) (by decide) (by decide) (by decide) (by decide)
  refine ⟨by decide, ?_⟩
  have h2 := h.2.1 0 (by decide) (by decide)
  rw [h2]
  decide

/-- C5: for every key and 16-byte IV, padding `b"a secret"` to 16 bytes,
encrypting, computing a tampered IV that substitutes the block-aligned
segment `b"  secret        "` by `b"  rabbit        "`, decrypting with
the tampered IV and unpadding yields exactly the plaintext
`b"a rabbit"`. -/
theorem attack_yields_a_rabbit (C : BlockCipher) (iv : List Nat)
    (hB : C.B = 16) (hiv : iv.length = 16) :
    attackScenario C iv = .ok aRabbit := by
  have hpadlen : (pad 16 aSecret).length = 16 := by decide
  have hxlen : (bytesXor (pad 16 aSecret) iv).length = 16 := by
    rw [length_bytesXor, hiv, hpadlen]
    exact Nat.min_self 16
  have hxlenB : (bytesXor (pad 16 aSecret) iv).length = C.B := by
    rw [hxlen, hB]
  have hctlen : (C.encBlock (bytesXor (pad 16 aSecret) iv)).length = 16 := by
    rw [C.enc_len _ hxlenB, hB]
  have htb : toBlocks 16 (pad 16 aSecret) = [pad 16 aSecret] := by
    have h := toBlocks_flatten 16 (by omega) [pad 16 aSecret]
      (by intro b hb; rw [List.mem_singleton.mp hb]; exact hpadlen)
    simpa using h
  have h1 : encrypt C iv (pad C.B aSecret) =
      .ok (C.encBlock (bytesXor (pad 16 aSecret) iv)) := by
    unfold encrypt
    rw [hB, if_pos (by rw [hpadlen]), htb]
    simp only [cbcEncryptBlocks, List.flatten_cons, List.flatten_nil,
      List.append_nil]
  have hklen : knownSegment.length = desiredSegment.length := by decide
  have hoffiv : 0 + knownSegment.length ≤ iv.length := by
    rw [hiv]
    decide
  have htbct : toBlocks 16 (C.encBlock (bytesXor (pad 16 aSecret) iv)) =
      [C.encBlock (bytesXor (pad 16 aSecret) iv)] := by
    have h := toBlocks_flatten 16 (by omega)
      [C.encBlock (bytesXor (pad 16 aSecret) iv)]
      (by intro b hb; rw [List.mem_singleton.mp hb]; exact hctlen)
    simpa using h
  have h2 : decrypt C (computeTamperedIV iv knownSegment desiredSegment 0)
      (C.encBlock (bytesXor (pad 16 aSecret) iv)) =
      .ok (bytesXor (bytesXor (pad 16 aSecret) iv)
        (computeTamperedIV iv knownSegment desiredSegment 0)) := by
    unfold decrypt
    rw [hB, if_pos ⟨by rw [hctlen],
      List.ne_nil_of_length_pos (by rw [hctlen]; omega)⟩, htbct]
    simp only [cbcDecryptBlocks, List.flatten_cons, List.flatten_nil,
      List.append_nil]
    rw [C.dec_enc _ hxlenB]
  have hdeltalen : (bytesXor knownSegment desiredSegment).length = 16 := by
    decide
  have hivform : computeTamperedIV iv knownSegment desiredSegment 0 =
      bytesXor iv (bytesXor knownSegment desiredSegment) := by
    unfold computeTamperedIV
    rw [hdeltalen, List.take_zero, List.drop_zero, List.nil_append,
      Nat.zero_add, List.take_of_length_le (le_of_eq hiv),
      List.drop_eq_nil_of_le (le_of_eq hiv), List.append_nil]
  unfold attackScenario
  rw [h1, bind_ok_cbc, h2, bind_ok_cbc, hivform,
    bytesXor_bytesXor_left _ iv _ (le_of_eq (by rw [hpadlen, hiv]))
      (le_of_eq (by rw [hpadlen, hdeltalen])), hB]
  decide

theorem attack_yields_a_rabbit_witness :
    cipher16.B = 16 ∧ (List.replicate 16 (0 : Nat)).length = 16 ∧
      attackScenario cipher16 (List.replicate 16 0) = .ok aRabbit :=
  ⟨rfl, by decide,
    attack_yields_a_rabbit cipher16 (List.replicate 16 0) rfl (by decide)⟩

/-- C6: for every byte sequence `data` and positive block size `B`,
`pad data B` appends exactly `padLen = B - (len(data) mod B)` bytes — and
exactly `B` bytes when `len(data)` is a multiple of `B` — each appended
byte having the value `padLen`, so the padded length is strictly greater
than `len(data)` and a multiple of `B`. -/
theorem pad_appends_padLen_bytes (B : Nat) (data : List Nat) (hB : 0 < B) :
    pad B data =
      data ++ List.replicate (B - data.length % B) (B - data.length % B) ∧
    (data.length % B = 0 → B - data.length % B = B) ∧
    data.length < (pad B data).length ∧
    (pad B data).length % B = 0 := by
  refine ⟨rfl, ?_, ?_, pad_length_mod B hB data⟩
  · intro h
    rw [h, Nat.sub_zero]
  · rw [pad_length]
    have := Nat.mod_lt data.length hB
    omega

theorem pad_appends_padLen_bytes_witness :
    0 < 4 ∧ ((4:Nat) % 4 = 0 → 4 - (4:Nat) % 4 = 4) ∧ (pad 4 [1, 2, 3, 4]).length % 4 = 0 := by
  have h := pad_appends_padLen_bytes 4 [1, 2, 3, 4] (by decide)
  exact ⟨by decide, fun hh => h.2.1 (by decide), h.2.2.2⟩

/-- C7: for every block size `B` and byte sequence `data` with last byte
`v`, `unpad` fails with `InvalidPadding` if and only if `v = 0`, or
`v > B`, or `len(data) < v`, or the last `v` bytes of `data` are not all
equal to `v`; otherwise it returns `data` with exactly the last `v` bytes
removed. -/
theorem unpad_validation (B : Nat) (data : List Nat) (v : Nat)
    (hv : data.getLast? = some v) :
    (unpad B data = .error .invalidPadding ↔
      v = 0 ∨ B < v ∨ data.length < v ∨
        ∃ x ∈ data.drop (data.length - v), x ≠ v) ∧
    (unpad B data ≠ .error .invalidPadding →
      unpad B data = .ok (data.take (data.length - v))) := by
  have hiff : (¬ ∀ x ∈ data.drop (data.length - v), x = v) ↔
      ∃ x ∈ data.drop (data.length - v), x ≠ v := by
    push_neg
    rfl
  unfold unpad
  rw [hv]
  dsimp only
  by_cases hcond : v = 0 ∨ B < v ∨ data.length < v ∨
      ¬ ∀ x ∈ data.drop (data.length - v), x = v
  · rw [if_pos hcond]
    constructor
    · constructor
      · intro _
        rcases hcond with h | h | h | h
        · exact Or.inl h
        · exact Or.inr (Or.inl h)
        · exact Or.inr (Or.inr (Or.inl h))
        · exact Or.inr (Or.inr (Or.inr (hiff.mp h)))
      · intro _
        rfl
    · intro h
      exact absurd rfl h
  · rw [if_neg hcond]
    constructor
    · constructor
      · intro h
        exact Except.noConfusion h
      · intro h
        exact absurd (by
          rcases h with h | h | h | h
          · exact Or.inl h
          · exact Or.inr (Or.inl h)
          · exact Or.inr (Or.inr (Or.inl h))
          · exact Or.inr (Or.inr (Or.inr (hiff.mpr h)))) hcond
    · intro _
      rfl

theorem unpad_validation_witness :
    ([1, 2, 2] : List Nat).getLast? = some 2 ∧ unpad 4 [1, 2, 2] = .ok [1] := by
  refine ⟨by decide, ?_⟩
  have h := (unpad_validation 4 [1, 2, 2] 2 (by decide)).2 (by decide)
  rw [h]
  decide

/-- C8: for every cipher, IV and byte sequence, `decrypt` fails with
`InvalidLength` if and only if the input length is not a multiple of `B`
or the input is empty, and `encrypt` fails with `InvalidLength` if and
only if the input length is not a multiple of `B`; the error is an
inspectable value of the result, never silently corrected. -/
theorem invalidLength_characterisation (C : BlockCipher) (iv s p : List Nat) :
    (decrypt C iv s = .error .invalidLength ↔ s.length % C.B ≠ 0 ∨ s = []) ∧
    (encrypt C iv p = .error .invalidLength ↔ p.length % C.B ≠ 0) := by
  constructor
  · unfold decrypt
    by_cases h : s.length % C.B = 0 ∧ s ≠ []
    · rw [if_pos h]
      constructor
      · intro hh
        exact Except.noConfusion hh
      · intro hh
        rcases hh with hh | hh
        · exact absurd h.1 hh
        · exact absurd hh h.2
    · rw [if_neg h]
      constructor
      · intro _
        by_cases h1 : s.length % C.B = 0
        · right
          by_contra h2
          exact h ⟨h1, h2⟩
        · exact Or.inl h1
      · intro _
        rfl
  · unfold encrypt
    by_cases h : p.length % C.B = 0
    · rw [if_pos h]
      constructor
      · intro hh
        exact Except.noConfusion hh
      · intro hh
        exact absurd h hh
    · rw [if_neg h]
      exact ⟨fun _ => h, fun _ => rfl⟩

/-- C9: for every byte sequence `m` and positive block size `B`,
unpadding the padding of `m` round-trips on its own:
`unpad B (pad B m) = ok m`. -/
theorem unpad_pad_roundtrip (B : Nat) (m : List Nat) (hB : 0 < B) :
    unpad B (pad B m) = .ok m :=
  unpad_pad B hB m

theorem unpad_pad_roundtrip_witness :
    0 < 3 ∧ unpad 3 (pad 3 [7, 8]) = .ok [7, 8] :=
  ⟨by decide, unpad_pad_roundtrip 3 [7, 8] (by decide)⟩

/-- C10: for every IV, offset and segment `s` with
`offset + len(s) ≤ len(iv)`, tampering with `known = desired = s` is the
identity: the delta is all zero bytes, so the tampered IV is byte-for-byte
the original. -/
theorem computeTamperedIV_self (iv s : List Nat) (offset : Nat)
    (hoff : offset + s.length ≤ iv.length) :
    computeTamperedIV iv s s offset = iv := by
  apply List.ext_getElem?
  intro u
  rw [computeTamperedIV_getElem? iv s s offset u rfl hoff]
  split_ifs with h
  · rw [Nat.xor_self, Nat.xor_zero, List.getD_eq_getElem?_getD,
      List.getElem?_eq_getElem (show u < iv.length by omega), Option.getD_some]
  · rfl

theorem computeTamperedIV_self_witness :
    0 + 2 ≤ 3 ∧ computeTamperedIV [5, 6, 7] [1, 2] [1, 2] 0 = [5, 6, 7] :=
  ⟨by decide, computeTamperedIV_self [5, 6, 7] [1, 2] 0 (by decide)⟩

/-- C4: for every original IV and equal-length segments `known` and
`desired` fitting in the IV, `computeTamperedIV` returns a sequence of the
same length whose bytes at `[offset, offset + len)` are the original bytes
XORed with `known XOR desired` and whose other bytes are unchanged (being
a pure function, it leaves `originalIV` untouched). -/
theorem computeTamperedIV_bytes (iv known desired : List Nat) (offset : Nat)
    (hlen : known.length = desired.length)
    (hoff : offset + known.length ≤ iv.length) :
    (computeTamperedIV iv known desired offset).length = iv.length ∧
    (∀ u, offset ≤ u → u < offset + known.length →
      (computeTamperedIV iv known desired offset)[u]? =
        some (iv.getD u 0 ^^^
          (known.getD (u - offset) 0 ^^^ desired.getD (u - offset) 0))) ∧
    (∀ u, ¬ (offset ≤ u ∧ u < offset + known.length) →
      (computeTamperedIV iv known desired offset)[u]? = iv[u]?)  := by
  refine ⟨computeTamperedIV_length iv known desired offset hlen hoff, ?_, ?_⟩
  · intro u h1 h2
    rw [computeTamperedIV_getElem? iv known desired offset u hlen hoff,
      if_pos ⟨h1, h2⟩]
  · intro u h
    rw [computeTamperedIV_getElem? iv known desired offset u hlen hoff, if_neg h]

theorem computeTamperedIV_bytes_witness :
    (computeTamperedIV [1, 2, 3, 4] [5] [6] 1).length = 4 ∧
    (computeTamperedIV [1, 2, 3, 4] [5] [6] 1)[1]? = some 1 ∧
    (computeTamperedIV [1, 2, 3, 4] [5] [6] 1)[2]? = some 3 := by
  obtain ⟨h1, h2, h3⟩ := computeTamperedIV_bytes [1, 2, 3, 4] [5] [6] 1
    (by decide) (by decide)
  refine ⟨by rw [h1]; rfl, ?_, ?_⟩
  · rw [h2 1 (by decide) (by decide)]
    decide
  · rw [h3 2 (by decide)]
    decide

end Cbc
